import Mathlib

/-!
Shallow embedding of MCUtil (Izaan17/MCUtil) core pieces, translated from the
Python sources:

* `src/backup.py`   — `BackupManager` (path exclusion, sequence numbering,
  create/delete/list/cleanup of backups);
* `src/server.py`   — `MinecraftServer` (start/stop/watch);
* `src/monitor.py`  — `watch_server`;
* `src/utils.py`    — `screen_exists` and friends (modelled as boolean oracles).

Strings are modelled as `List Char` (Python compares strings by code point,
which matches the lexicographic order on the character lists).  External
effects (the filesystem, the `screen` session manager) are modelled as explicit
state or as boolean parameters recording what the probed environment reported.
-/

/-! ## String helpers (Python `in`, `endswith`, `replace`, string order) -/

/-- Python `str.startswith`: `leadsWith needle hay` is true when `hay`
starts with `needle`. -/
def leadsWith : List Char → List Char → Bool
  | [], _ => true
  | _ :: _, [] => false
  | a :: as, b :: bs => a == b && leadsWith as bs

/-- Python `needle in hay`: true when `needle` occurs as a contiguous
substring of `hay`. -/
def occursIn : List Char → List Char → Bool
  | needle, [] => leadsWith needle []
  | needle, hay@(_ :: t) => leadsWith needle hay || occursIn needle t

/-- Python `str.endswith`: `endsWith needle hay` is true when `hay` ends
with `needle`. -/
def endsWith (needle hay : List Char) : Bool :=
  leadsWith needle.reverse hay.reverse

/-- Python string comparison `a <= b`: lexicographic by code point. -/
def listLe : List Char → List Char → Bool
  | [], _ => true
  | _ :: _, [] => false
  | a :: as, b :: bs =>
    if a.toNat < b.toNat then true
    else if b.toNat < a.toNat then false
    else listLe as bs

theorem leadsWith_iff (n h : List Char) : leadsWith n h = true ↔ n <+: h := by
  induction n generalizing h with
  | nil => simp [leadsWith]
  | cons a as ih =>
    cases h with
    | nil =>
      simp only [leadsWith, Bool.false_eq_true, false_iff]
      intro hpre
      exact absurd hpre.length_le (by simp)
    | cons b bs =>
      simp only [leadsWith, Bool.and_eq_true, beq_iff_eq, ih, List.cons_prefix_cons]

theorem occursIn_iff (n h : List Char) : occursIn n h = true ↔ n <:+: h := by
  induction h with
  | nil =>
    simp [occursIn, leadsWith_iff]
  | cons b bs ih =>
    simp only [occursIn, Bool.or_eq_true, leadsWith_iff, ih, List.infix_cons_iff]

theorem endsWith_iff (n h : List Char) : endsWith n h = true ↔ n <:+ h := by
  simp only [endsWith, leadsWith_iff, List.reverse_prefix]

theorem listLe_refl (a : List Char) : listLe a a = true := by
  induction a with
  | nil => rfl
  | cons x xs ih => simp [listLe, ih]

theorem listLe_total (a b : List Char) : listLe a b = true ∨ listLe b a = true := by
  induction a generalizing b with
  | nil => left; rfl
  | cons x xs ih =>
    cases b with
    | nil => right; rfl
    | cons y ys =>
      rcases Nat.lt_trichotomy x.toNat y.toNat with hlt | heq | hgt
      · left; simp [listLe, hlt]
      · have hnlt : ¬ x.toNat < y.toNat := by omega
        have hnlt' : ¬ y.toNat < x.toNat := by omega
        rcases ih ys with h | h
        · left; simp [listLe, hnlt, hnlt', h]
        · right; simp [listLe, hnlt, hnlt', h]
      · right; simp [listLe, hgt]

theorem listLe_trans {a b c : List Char} (hab : listLe a b = true)
    (hbc : listLe b c = true) : listLe a c = true := by
  induction a generalizing b c with
  | nil => rfl
  | cons x xs ih =>
    cases b with
    | nil => simp [listLe] at hab
    | cons y ys =>
      cases c with
      | nil => simp [listLe] at hbc
      | cons z zs =>
        simp only [listLe] at hab hbc ⊢
        rcases Nat.lt_trichotomy x.toNat y.toNat with hxy | hxy | hxy
        · rcases Nat.lt_trichotomy y.toNat z.toNat with hyz | hyz | hyz
          · simp [show x.toNat < z.toNat by omega]
          · simp [show x.toNat < z.toNat by omega]
          · simp [hyz, show ¬ y.toNat < z.toNat by omega] at hbc
        · rcases Nat.lt_trichotomy y.toNat z.toNat with hyz | hyz | hyz
          · simp [show x.toNat < z.toNat by omega]
          · have h1 : ¬ x.toNat < z.toNat := by omega
            have h2 : ¬ z.toNat < x.toNat := by omega
            simp only [show ¬ x.toNat < y.toNat by omega,
              show ¬ y.toNat < x.toNat by omega, if_false] at hab
            simp only [show ¬ y.toNat < z.toNat by omega,
              show ¬ z.toNat < y.toNat by omega, if_false] at hbc
            simp [h1, h2, ih hab hbc]
          · simp [hyz, show ¬ y.toNat < z.toNat by omega] at hbc
        · simp [hxy, show ¬ x.toNat < y.toNat by omega] at hab

/-! ## PathMatcher — `BackupManager._should_exclude` (src/backup.py:411-417) -/

/-- Translation of `BackupManager._should_exclude`:

    for pattern in exclude_patterns:
        if pattern in path or path.endswith(pattern.replace("*", "")):
            return True
    return False

`pattern.replace("*", "")` removes every `'*'` character, wherever it
occurs in the pattern. -/
def shouldExclude (path : List Char) (excludePatterns : List (List Char)) : Bool :=
  excludePatterns.any fun pattern =>
    occursIn pattern path || endsWith (pattern.filter fun c => !(c == '*')) path

/-- For comparison only, the matcher as the claim words it: a pattern matches
when it is a literal substring of the path, or the path ends with the pattern
stripped of any *trailing* wildcard characters (leaving interior or leading
`'*'` in place). -/
def claimExcluded (path : List Char) (excludePatterns : List (List Char)) : Bool :=
  excludePatterns.any fun pattern =>
    occursIn pattern path ||
      endsWith ((pattern.reverse.dropWhile fun c => c == '*').reverse) path

/-! ## BackupCatalog, one bucket — `BackupManager` on a single date directory

`create_backup` and `delete_backup` (src/backup.py) act on one date directory
(`backup_dir/YYYY-MM-DD`): its metadata file `backups.json` (a list of backup
records) and its archive files.  A `DayState` holds both.  Archive contents are
abstracted to a `Nat` tag so that overwriting is observable.  The trailing
`_cleanup_old_backups` call of a successful `create_backup` only ever removes
date directories beyond the `retention` newest (see `cleanupOldBackups` below),
and today's directory is always among the newest, so it never changes the
current day's `DayState` and is omitted here. -/

/-- One entry of the `"backups"` list of `backups.json`; metadata fields not
consulted by the modelled operations (type, description, timestamps, sizes)
are omitted. -/
structure BackupRecord where
  number : Nat
  filename : List Char
  customName : Option (List Char)
  deriving DecidableEq

/-- A date directory: its parsed `backups.json` plus the archive files present
on disk, as an association list from filename to an abstract content tag. -/
structure DayState where
  backups : List BackupRecord
  files : List (List Char × Nat)
  deriving DecidableEq

/-- Filenames present in the date directory. -/
def fileNames (files : List (List Char × Nat)) : List (List Char) :=
  files.map fun f => f.1

/-- Write `content` to `name`, overwriting any existing file of that name. -/
def setFile (files : List (List Char × Nat)) (name : List Char) (content : Nat) :
    List (List Char × Nat) :=
  (files.filter fun f => !(f.1 == name)) ++ [(name, content)]

/-- Python `Path.unlink`: remove the file called `name`. -/
def removeFile (files : List (List Char × Nat)) (name : List Char) :
    List (List Char × Nat) :=
  files.filter fun f => !(f.1 == name)

/-- Python `max(backup["number"] for backup in metadata["backups"])`, as a fold
(for a non-empty list of `Nat` numbers the fold from `0` is the maximum). -/
def maxBackupNumber (backups : List BackupRecord) : Nat :=
  backups.foldl (fun m r => Nat.max m r.number) 0

/-- Translation of `BackupManager._get_next_backup_number`:

    metadata = self._load_metadata(date_dir)
    if not metadata["backups"]:
        return 1
    return max(backup["number"] for backup in metadata["backups"]) + 1

(`_load_metadata` also returns `{"backups": []}` when the metadata file is
missing or unreadable, which is the `[]` case here). -/
def nextBackupNumber (backups : List BackupRecord) : Nat :=
  if backups.isEmpty then 1 else maxBackupNumber backups + 1

/-- The two keys of `BackupManager.BACKUP_TYPES`.  `create_backup` rejects any
other type string before doing anything (`backup_type not in BACKUP_TYPES`),
so only these two reach the body. -/
inductive BackupType where
  | quick
  | full
  deriving DecidableEq

def BackupType.name : BackupType → List Char
  | .quick => "quick".data
  | .full => "full".data

/-- Python `"%03d" % n`: decimal digits of `n` left-padded with `'0'` to
width 3. -/
def pad3 (n : Nat) : List Char :=
  let s := (Nat.repr n).data
  List.replicate (3 - s.length) '0' ++ s

/-- Filename choice of `create_backup`:

    if custom_name:
        backup_filename = f"{custom_name}.zip"
    else:
        backup_filename = f"backup_{backup_number:03d}_{backup_type}.zip"

Python's truthiness makes `None` and `""` both take the numbered branch. -/
def backupFilename (customName : Option (List Char)) (number : Nat)
    (btype : BackupType) : List Char :=
  match customName with
  | some c =>
    if c.isEmpty then
      "backup_".data ++ pad3 number ++ "_".data ++ btype.name ++ ".zip".data
    else c ++ ".zip".data
  | none => "backup_".data ++ pad3 number ++ "_".data ++ btype.name ++ ".zip".data

/-- Translation of `BackupManager.create_backup` on the current date directory.

* `serverDirExists` models the `self.server_dir.exists()` precondition: when
  false the run fails fast with no side effect.
* `writeResult` models the archive write: `some content` when the
  `zipfile.ZipFile(backup_path, 'w')` block completes (the archive holding
  `content` then exists on disk), `none` when any exception is raised while
  writing the archive — the `except` branch then unlinks `backup_path`
  (tolerating `FileNotFoundError`) and returns `None`, appending nothing to
  the metadata.
* On success the record is appended to the metadata and the backup path is
  returned. -/
def createBackup (st : DayState) (btype : BackupType)
    (customName : Option (List Char)) (serverDirExists : Bool)
    (writeResult : Option Nat) : DayState × Option (List Char) :=
  if !serverDirExists then (st, none)
  else
    let number := nextBackupNumber st.backups
    let filename := backupFilename customName number btype
    match writeResult with
    | none =>
      ({ backups := st.backups, files := removeFile st.files filename }, none)
    | some content =>
      ({ backups := st.backups ++ [⟨number, filename, customName⟩],
         files := setFile st.files filename content }, some filename)

/-- The single-bucket part of `BackupManager.list_backups`: the records of the
bucket, in stored order, restricted to those whose archive file still exists
(`if backup_path.exists()`). -/
def listedRecords (st : DayState) : List BackupRecord :=
  st.backups.filter fun r => (fileNames st.files).contains r.filename

/-- Translation of `BackupManager.delete_backup` restricted to one bucket:
find the first listed record whose filename equals the identifier, equals
`identifier + ".zip"`, or contains the identifier as a substring; unlink its
archive and drop every metadata record carrying that filename.  (The source
then also removes `backups.json` and the directory itself when both become
empty; that bookkeeping adds no record or file and is not modelled.) -/
def deleteBackup (st : DayState) (ident : List Char) : DayState × Bool :=
  match (listedRecords st).find? (fun r =>
      r.filename == ident || r.filename == ident ++ ".zip".data ||
        occursIn ident r.filename) with
  | none => (st, false)
  | some target =>
    ({ backups := st.backups.filter fun b => !(b.filename == target.filename),
       files := removeFile st.files target.filename }, true)

/-- One user-level catalog operation on the bucket, for sequencing runs:
a successful quick backup writing `content`, or a delete by identifier. -/
inductive BackupOp where
  | create (content : Nat)
  | delete (ident : List Char)

/-- Run a sequence of operations from a state, recording the sequence number
assigned by each (successful) create in order. -/
def runOps : DayState → List BackupOp → DayState × List Nat
  | st, [] => (st, [])
  | st, BackupOp.create content :: rest =>
    let n := nextBackupNumber st.backups
    let st1 := (createBackup st BackupType.quick none true (some content)).1
    let out := runOps st1 rest
    (out.1, n :: out.2)
  | st, BackupOp.delete ident :: rest => runOps (deleteBackup st ident).1 rest

/-! ## Lemmas on sequence numbering -/

theorem foldlMax_init_le (l : List BackupRecord) (init : Nat) :
    init ≤ l.foldl (fun m r => Nat.max m r.number) init := by
  induction l generalizing init with
  | nil => simp
  | cons x xs ih =>
    simp only [List.foldl_cons]
    exact le_trans (Nat.le_max_left init x.number) (ih (Nat.max init x.number))

theorem le_foldlMax_of_mem {l : List BackupRecord} {r : BackupRecord}
    (hr : r ∈ l) (init : Nat) :
    r.number ≤ l.foldl (fun m r => Nat.max m r.number) init := by
  induction l generalizing init with
  | nil => cases hr
  | cons x xs ih =>
    simp only [List.foldl_cons]
    rcases List.mem_cons.mp hr with h | h
    · subst h
      exact le_trans (Nat.le_max_right init r.number)
        (foldlMax_init_le xs (Nat.max init r.number))
    · exact ih h (Nat.max init x.number)

theorem le_maxBackupNumber {l : List BackupRecord} {r : BackupRecord}
    (hr : r ∈ l) : r.number ≤ maxBackupNumber l :=
  le_foldlMax_of_mem hr 0

theorem mem_lt_nextBackupNumber {l : List BackupRecord} {r : BackupRecord}
    (hr : r ∈ l) : r.number < nextBackupNumber l := by
  unfold nextBackupNumber
  cases l with
  | nil => cases hr
  | cons x xs =>
    simp only [List.isEmpty_cons, if_neg Bool.false_ne_true]
    exact Nat.lt_succ_of_le (le_maxBackupNumber hr)

theorem maxBackupNumber_append_single (l : List BackupRecord) (r : BackupRecord) :
    maxBackupNumber (l ++ [r]) = Nat.max (maxBackupNumber l) r.number := by
  simp [maxBackupNumber, List.foldl_append]

theorem nextBackupNumber_append_single (l : List BackupRecord) (r : BackupRecord) :
    nextBackupNumber (l ++ [r]) = Nat.max (maxBackupNumber l) r.number + 1 := by
  have hne : (l ++ [r]).isEmpty = false := by cases l <;> rfl
  unfold nextBackupNumber
  rw [hne, maxBackupNumber_append_single]
  simp

theorem nextBackupNumber_append_next (l : List BackupRecord) (fn : List Char)
    (cn : Option (List Char)) :
    nextBackupNumber (l ++ [⟨nextBackupNumber l, fn, cn⟩]) =
      nextBackupNumber l + 1 := by
  rw [nextBackupNumber_append_single]
  cases l with
  | nil => rfl
  | cons x xs =>
    simp only [nextBackupNumber, List.isEmpty_cons, Bool.false_eq_true,
      if_false, Nat.max_def]
    split <;> omega

theorem createBackup_quick_backups (st : DayState) (content : Nat) :
    (createBackup st BackupType.quick none true (some content)).1.backups =
      st.backups ++ [⟨nextBackupNumber st.backups,
        backupFilename none (nextBackupNumber st.backups) BackupType.quick,
        none⟩] := by
  simp [createBackup]

theorem runOps_creates_only (contents : List Nat) (st : DayState) :
    (runOps st (contents.map BackupOp.create)).2 =
      List.range' (nextBackupNumber st.backups) contents.length := by
  induction contents generalizing st with
  | nil => simp [runOps]
  | cons c cs ih =>
    simp only [List.map_cons, runOps, List.length_cons, List.range'_succ]
    refine congrArg _ ?_
    rw [ih]
    rw [createBackup_quick_backups, nextBackupNumber_append_next]

/-! ## Claims C1, C2, C9 -/

/-- C1 (counterexample): in the bucket-level trace
create, create, delete the number-2 backup, create — run by the code of
`_get_next_backup_number`, `create_backup` and `delete_backup` — the sequence
numbers handed out are `[1, 2, 2]`: the number 2 is reused for the backup
created after the deletion, so the assigned numbers are not strictly
increasing and a number IS reused after an interleaved deletion. -/
theorem claim_C1_counterexample :
    (runOps ⟨[], []⟩ [BackupOp.create 0, BackupOp.create 0,
        BackupOp.delete "backup_002_quick.zip".data, BackupOp.create 0]).2
      = [1, 2, 2] ∧
    ¬ List.Chain' (· < ·) ([1, 2, 2] : List Nat) := by
  constructor
  · decide
  · intro h
    rcases List.chain'_cons.mp h with ⟨-, h2⟩
    rcases List.chain'_cons.mp h2 with ⟨h22, -⟩
    exact absurd h22 (by omega)

/-- C1 (amended): `nextSequenceNumber` defaults to 1 for an empty/missing
bucket and otherwise returns max(existing numbers) + 1; every number it
assigns is strictly greater than every number currently present in the
bucket (so it never collides with a live record); and in any run of creates
with no interleaved deletions the assigned numbers are exactly
`1, 2, …, k`, strictly increasing from 1.  (After a deletion that removes
the record holding the current maximum, the next assignment may reuse that
maximum — see the counterexample.) -/
theorem claim_C1_amended :
    nextBackupNumber [] = 1 ∧
    (∀ bs : List BackupRecord, bs ≠ [] →
      nextBackupNumber bs = maxBackupNumber bs + 1) ∧
    (∀ (bs : List BackupRecord) (r : BackupRecord), r ∈ bs →
      r.number < nextBackupNumber bs) ∧
    (∀ contents : List Nat,
      (runOps ⟨[], []⟩ (contents.map BackupOp.create)).2 =
        List.range' 1 contents.length) := by
  refine ⟨rfl, ?_, ?_, ?_⟩
  · intro bs hbs
    unfold nextBackupNumber
    rw [if_neg]
    simp [List.isEmpty_iff, hbs]
  · intro bs r hr
    exact mem_lt_nextBackupNumber hr
  · intro contents
    rw [runOps_creates_only]
    rfl

/-- C1 (witness for the amended theorem). -/
theorem claim_C1_witness :
    nextBackupNumber [⟨2, "b".data, none⟩] = maxBackupNumber [⟨2, "b".data, none⟩] + 1 ∧
    (2 : Nat) < nextBackupNumber [⟨2, "b".data, none⟩] ∧
    (runOps ⟨[], []⟩ ([0, 1, 2].map BackupOp.create)).2 = List.range' 1 3 :=
  ⟨claim_C1_amended.2.1 [⟨2, "b".data, none⟩] (by decide),
   claim_C1_amended.2.2.1 [⟨2, "b".data, none⟩] ⟨2, "b".data, none⟩ (by decide),
   claim_C1_amended.2.2.2 [0, 1, 2]⟩

/-- C2: if any exception is raised while writing the archive
(`writeResult = none`), `create_backup` returns failure (`None`), leaves the
bucket metadata exactly as it was (no record appended), and the archive path
of the run does not exist on disk afterwards (the partial file is unlinked). -/
theorem claim_C2_write_failure_cleanup (st : DayState) (btype : BackupType)
    (customName : Option (List Char)) :
    (createBackup st btype customName true none).2 = none ∧
    (createBackup st btype customName true none).1.backups = st.backups ∧
    backupFilename customName (nextBackupNumber st.backups) btype ∉
      fileNames (createBackup st btype customName true none).1.files := by
  refine ⟨by simp [createBackup], by simp [createBackup], ?_⟩
  simp only [createBackup, Bool.not_true, Bool.false_eq_true, if_false,
    fileNames, removeFile, List.mem_map]
  rintro ⟨f, hf, hname⟩
  have := (List.mem_filter.mp hf).2
  simp only [Bool.not_eq_eq_eq_not, Bool.not_true, beq_eq_false_iff_ne] at this
  exact this hname

/-- C9: with a non-empty `custom_name` the archive filename is exactly
`custom_name + ".zip"` — independent of the sequence number and of the bucket
state — so two same-day backups with the same custom name write to the same
archive path: after the second run the metadata holds two distinct records
with strictly increasing sequence numbers, both pointing at that single
filename, while on disk exactly one archive of that name remains, holding the
second run's content. -/
theorem claim_C9_custom_name_overwrite (st : DayState) (bt : BackupType)
    (c : List Char) (k₁ k₂ : Nat) (hc : c ≠ []) :
    (createBackup st bt (some c) true (some k₁)).2 = some (c ++ ".zip".data) ∧
    (∀ st' : DayState,
      (createBackup st' bt (some c) true (some k₂)).2 = some (c ++ ".zip".data)) ∧
    (∃ n₁ n₂ : Nat, n₁ < n₂ ∧
      (createBackup (createBackup st bt (some c) true (some k₁)).1 bt (some c)
          true (some k₂)).1.backups =
        st.backups ++ [⟨n₁, c ++ ".zip".data, some c⟩,
          ⟨n₂, c ++ ".zip".data, some c⟩] ∧
      ((createBackup (createBackup st bt (some c) true (some k₁)).1 bt (some c)
          true (some k₂)).1.files.filter fun f => f.1 == c ++ ".zip".data) =
        [(c ++ ".zip".data, k₂)]) := by
  have hemp : c.isEmpty = false := by
    cases c with
    | nil => exact absurd rfl hc
    | cons a as => rfl
  have hfn : backupFilename (some c) (nextBackupNumber st.backups) bt =
      c ++ ".zip".data := by
    simp [backupFilename, hemp]
  refine ⟨?_, ?_, ?_⟩
  · simp [createBackup, backupFilename, hemp]
  · intro st'
    simp [createBackup, backupFilename, hemp]
  · refine ⟨nextBackupNumber st.backups, nextBackupNumber st.backups + 1,
      Nat.lt_succ_self _, ?_, ?_⟩
    · simp only [createBackup, Bool.not_true, Bool.false_eq_true, if_false,
        backupFilename, hemp, List.append_assoc]
      rw [nextBackupNumber_append_next]
      simp
    · simp only [createBackup, Bool.not_true, Bool.false_eq_true, if_false,
        backupFilename, hemp, setFile]
      simp only [List.filter_append, List.filter_filter]
      rw [List.filter_eq_nil_iff.mpr (by intro f hf; simp)]
      simp

/-- C9 (witness). -/
theorem claim_C9_witness :
    (createBackup ⟨[], []⟩ BackupType.quick (some "world".data) true
        (some 7)).2 = some ("world".data ++ ".zip".data) ∧
    (∀ st' : DayState,
      (createBackup st' BackupType.quick (some "world".data) true (some 8)).2 =
        some ("world".data ++ ".zip".data)) ∧
    (∃ n₁ n₂ : Nat, n₁ < n₂ ∧
      (createBackup (createBackup ⟨[], []⟩ BackupType.quick (some "world".data)
          true (some 7)).1 BackupType.quick (some "world".data) true
          (some 8)).1.backups =
        ([] : List BackupRecord) ++ [⟨n₁, "world".data ++ ".zip".data, some "world".data⟩,
          ⟨n₂, "world".data ++ ".zip".data, some "world".data⟩] ∧
      ((createBackup (createBackup ⟨[], []⟩ BackupType.quick (some "world".data)
          true (some 7)).1 BackupType.quick (some "world".data) true
          (some 8)).1.files.filter fun f => f.1 == "world".data ++ ".zip".data) =
        [("world".data ++ ".zip".data, 8)]) :=
  claim_C9_custom_name_overwrite ⟨[], []⟩ BackupType.quick "world".data 7 8
    (by decide)

/-! ## Claim C4 — path exclusion -/

/-- C4 (counterexample): for the pattern `"*.log"` (which is literally in the
`full` backup type's exclude list) and the path `"foo.log"`, the code excludes
the path — `pattern.replace("*", "")` removes the *leading* wildcard, giving
`".log"`, a suffix of the path — while the claim's formula (substring, or
suffix after stripping only *trailing* wildcards) does not. -/
theorem claim_C4_counterexample :
    shouldExclude "foo.log".data ["*.log".data] = true ∧
    claimExcluded "foo.log".data ["*.log".data] = false := by
  constructor
  · decide
  · decide

/-- C4 (amended): `excluded(p, P)` is true iff some pattern in `P` is a
literal substring of `p`, or `p` ends with that pattern with **all** wildcard
characters removed (wherever they occur, not only trailing ones); the empty
pattern set excludes nothing. -/
theorem claim_C4_amended (p : List Char) (P : List (List Char)) :
    (shouldExclude p P = true ↔
      ∃ pat ∈ P, pat <:+: p ∨ (pat.filter fun c => !(c == '*')) <:+ p) ∧
    shouldExclude p [] = false := by
  constructor
  · simp only [shouldExclude, List.any_eq_true, Bool.or_eq_true, occursIn_iff,
      endsWith_iff]
  · rfl

/-! ## Watchdog loops — `MinecraftServer.watch` and `monitor.watch_server`

Each list element is one polling tick.  For `watchLoop` a tick is
`(running, startOk)`: what `is_running()` probed, and — when a restart was
attempted — what `start()` returned.  The real loops run until the process is
cancelled (`KeyboardInterrupt`); a finite tick list models the ticks observed
up to that cancellation, so surviving the whole list means "still polling". -/

/-- Translation of the loop body of `MinecraftServer.watch`
(src/server.py:205-230):

    while True:
        if not self.is_running():
            if self.start(): ...
            else:
                print_status("Failed to restart server", "error")
                break
        time.sleep(check_interval)

Returns (number of `start()` invocations, whether the loop exited by itself
via `break` before the ticks ran out). -/
def watchLoop : List (Bool × Bool) → Nat × Bool
  | [] => (0, false)
  | (running, startOk) :: rest =>
    if running then watchLoop rest
    else if startOk then
      let out := watchLoop rest
      (out.1 + 1, out.2)
    else (1, true)

/-- Translation of the loop body of `watch_server` (src/monitor.py:13-27):

    while True:
        if not screen_session_exists(cfg["SCREEN_NAME"]):
            start_server(cfg)
        time.sleep(interval)

One probe result per tick; returns the number of `start_server` invocations.
This loop has no exit other than cancellation. -/
def monitorLoop : List Bool → Nat
  | [] => 0
  | running :: rest => (if running then 0 else 1) + monitorLoop rest

/-- C3 (counterexample): at a tick where the probe reports the server absent
and the restart attempt fails, `MinecraftServer.watch` invokes `start()` once
and then **breaks out of the loop** (second component `true`), never reaching
the following tick — it does not "log and continue to the next polling tick",
and the loop terminates without any cancellation. -/
theorem claim_C3_counterexample :
    watchLoop [(false, false), (true, true)] = (1, true) := by decide

/-- C3 (amended): on every tick whose probe reports the server absent, the
watchdog invokes `start()` exactly once.  As long as no restart attempt fails,
`MinecraftServer.watch` keeps polling and terminates only on cancellation;
but at the first failed restart attempt it logs and exits the loop,
regardless of the remaining ticks.  `monitor.watch_server`, by contrast,
always continues to the next tick and terminates only on cancellation. -/
theorem claim_C3_amended (ticks : List (Bool × Bool)) (probes : List Bool) :
    ((∀ t ∈ ticks, t.1 = false → t.2 = true) →
      watchLoop ticks = (ticks.countP fun t => !t.1, false)) ∧
    (∀ pre rest : List (Bool × Bool),
      (∀ t ∈ pre, t.1 = false → t.2 = true) →
      watchLoop (pre ++ (false, false) :: rest) =
        ((pre.countP fun t => !t.1) + 1, true)) ∧
    monitorLoop probes = probes.countP fun b => !b := by
  refine ⟨?_, ?_, ?_⟩
  · induction ticks with
    | nil => intro _; rfl
    | cons t rest ih =>
      intro hall
      obtain ⟨r, s⟩ := t
      have hrest := ih fun u hu => hall u (List.mem_cons_of_mem _ hu)
      cases r with
      | true => simp [watchLoop, List.countP_cons, hrest]
      | false =>
        have hs : s = true := hall (false, s) (List.mem_cons_self _ _) rfl
        subst hs
        simp [watchLoop, List.countP_cons, hrest]
  · intro pre
    induction pre with
    | nil => intro rest _; simp [watchLoop]
    | cons t pr ih =>
      intro rest hall
      obtain ⟨r, s⟩ := t
      have hpr := ih rest fun u hu => hall u (List.mem_cons_of_mem _ hu)
      cases r with
      | true => simp [watchLoop, List.countP_cons, hpr]
      | false =>
        have hs : s = true := hall (false, s) (List.mem_cons_self _ _) rfl
        subst hs
        simp [watchLoop, List.countP_cons, hpr]
  · induction probes with
    | nil => rfl
    | cons b rest ih =>
      cases b with
      | true => simp [monitorLoop, List.countP_cons, ih]
      | false =>
        simp [monitorLoop, List.countP_cons, ih]
        omega

/-- C3 (witness for the amended theorem). -/
theorem claim_C3_witness :
    watchLoop [(true, true), (false, true)] =
      (List.countP (fun t => !t.1) [(true, true), (false, true)], false) ∧
    watchLoop ([(false, true)] ++ (false, false) :: []) =
      (List.countP (fun t => !t.1) [(false, true)] + 1, true) ∧
    monitorLoop [true, false, false] =
      List.countP (fun b => !b) [true, false, false] :=
  ⟨(claim_C3_amended [(true, true), (false, true)] []).1 (by decide),
   (claim_C3_amended [] []).2.1 [(false, true)] [] (by decide),
   (claim_C3_amended [] [true, false, false]).2.2⟩

/-! ## ProcessSupervisor — `MinecraftServer.start` and `MinecraftServer.stop` -/

/-- Translation of `MinecraftServer.start` (src/server.py:26-68).  The boolean
parameters record what the environment reported: `running` is `is_running()`
at entry, `jarExists` is `jar_path.exists()`, `launchOk` is
`run_command(screen_cmd)`, `startedWithin` is `wait_for_condition(is_running,
10)`.  Result: the returned boolean, paired with the number of launch
commands issued to the session manager (the only mutation of external
state). -/
def mcStart (running jarExists launchOk startedWithin : Bool) : Bool × Nat :=
  if running then (false, 0)
  else if !jarExists then (false, 0)
  else if !launchOk then (false, 1)
  else if startedWithin then (true, 1)
  else (false, 1)

/-- C5 (counterexample): calling `start()` while the session is detected as
running launches nothing (zero commands issued) and prints only a warning,
but it returns `False` — the very value the method's contract (`"Returns:
True if started successfully"`) and its callers (`watch` prints "Failed to
restart server" and gives up) treat as a failed invocation, while a
successful start returns `True`.  So the invocation *is* reported as a
failure, contradicting the claim. -/
theorem claim_C5_counterexample :
    (mcStart true true true true).2 = 0 ∧
    (mcStart true true true true).1 = false ∧
    (mcStart false true true true).1 = true := by
  refine ⟨rfl, rfl, rfl⟩

/-- C5 (amended): calling `start()` while the session is already detected as
running prints a warning (not an error), launches nothing and changes no
external state — a launch command is only ever issued when the session was
probed absent and the jar exists — but it returns `False`, the same boolean
every failed start returns, so the call is reported as unsuccessful. -/
theorem claim_C5_amended (jarExists launchOk startedWithin : Bool) :
    mcStart true jarExists launchOk startedWithin = (false, 0) ∧
    (∀ r j l s : Bool, 0 < (mcStart r j l s).2 → r = false ∧ j = true) := by
  constructor
  · rfl
  · intro r j l s h
    cases r with
    | false =>
      cases j with
      | false => simp [mcStart] at h
      | true => exact ⟨rfl, rfl⟩
    | true => simp [mcStart] at h

/-- C5 (witness for the amended theorem). -/
theorem claim_C5_witness :
    mcStart true true true true = (false, 0) ∧ (false = false ∧ true = true) :=
  ⟨(claim_C5_amended true true true).1,
   (claim_C5_amended true true true).2 false true true true (by decide)⟩

/-- Translation of `MinecraftServer.stop` (src/server.py:70-110) with
`_force_stop` inlined.  The boolean parameters record what the environment
reported: `running0` is `is_running()` at entry; `sendOk` is
`send_to_screen(name, "stop")`; `stoppedWithin` is the graceful-shutdown
wait; `forceCmdOk` is `run_command('screen -S name -X quit')`; `runningAfter`
is `is_running()` re-probed after the forced quit.  Result: the returned
boolean, the number of `"stop"` lines sent to the session, and the number of
force-quit commands issued. -/
def mcStop (running0 sendOk stoppedWithin forceCmdOk runningAfter : Bool) :
    Bool × Nat × Nat :=
  if !running0 then (true, 0, 0)
  else if !sendOk then (false, 1, 0)
  else if stoppedWithin then (true, 1, 0)
  else if forceCmdOk && !runningAfter then (true, 1, 1)
  else (false, 1, 1)

/-- C10: when the session is not detected at entry, `stop()` returns `True`
while sending no shutdown line and no force-quit command to the session
manager; and the only executions that return `False` are those where the
session was detected as running at entry. -/
theorem claim_C10_stop_when_absent :
    (∀ s w f a : Bool, mcStop false s w f a = (true, 0, 0)) ∧
    (∀ r s w f a : Bool, (mcStop r s w f a).1 = false → r = true) := by
  constructor
  · intro s w f a; rfl
  · intro r s w f a h
    cases r with
    | true => rfl
    | false => simp [mcStop] at h

/-- C10 (witness). -/
theorem claim_C10_witness :
    mcStop false true true true true = (true, 0, 0) ∧ (true : Bool) = true :=
  ⟨claim_C10_stop_when_absent.1 true true true true,
   claim_C10_stop_when_absent.2 true false true true true (by decide)⟩

/-! ## BackupCatalog, all buckets — cleanup and listing

`_cleanup_old_backups` and `list_backups` (src/backup.py) walk the entries of
`backup_dir`.  Only subdirectories can pass their common filter
(`d.is_dir() and len(d.name) == 10 and d.name.count('-') == 2`), and plain
files in `backup_dir` are never touched by either, so the model carries the
directories only. -/

/-- A subdirectory of `backup_dir`: its name, its parsed `backups.json`
records and the archive filenames present inside it. -/
structure DirEntry where
  name : List Char
  backups : List BackupRecord
  files : List (List Char)
  deriving DecidableEq

/-- The date-directory filter shared by `_cleanup_old_backups` and
`list_backups`: `len(d.name) == 10 and d.name.count('-') == 2`. -/
def isDateName (name : List Char) : Bool :=
  name.length == 10 && name.count '-' == 2

/-- The descending name order used by `date_dirs.sort(key=..., reverse=True)`
and `sorted(date_dirs, reverse=True)`. -/
def descByName (d e : DirEntry) : Prop := listLe e.name d.name = true

instance : DecidableRel descByName := fun d e =>
  inferInstanceAs (Decidable (listLe e.name d.name = true))

instance : IsTotal DirEntry descByName := ⟨fun a b => listLe_total b.name a.name⟩

instance : IsTrans DirEntry descByName :=
  ⟨fun _ _ _ hab hbc => listLe_trans hbc hab⟩

/-- Translation of `BackupManager._cleanup_old_backups` (src/backup.py:419-448):

    if self.retention <= 0: return
    date_dirs = [d for d in self.backup_dir.iterdir() if ...format filter...]
    if len(date_dirs) <= self.retention: return
    date_dirs.sort(key=lambda x: x.name, reverse=True)
    for old_dir in date_dirs[self.retention:]:
        shutil.rmtree(old_dir)

`retention` is `config.get("backup_retention", 7)`, an arbitrary integer.  A
removal failure (caught `OSError`, loop continues) is not modelled: every
`rmtree` succeeds.  The function returns the directories that remain. -/
def cleanupOldBackups (retention : Int) (dirs : List DirEntry) : List DirEntry :=
  if retention ≤ 0 then dirs
  else if ((dirs.filter fun d => isDateName d.name).length : Int) ≤ retention then
    dirs
  else
    dirs.filter fun d =>
      decide (d ∉ (List.insertionSort descByName
        (dirs.filter fun d => isDateName d.name)).drop retention.toNat)

/-- Translation of `BackupManager.list_backups` (src/backup.py:450-475): walk
the date directories in descending name order; inside each, walk the metadata
records in stored order and keep those whose archive file still exists
(`if backup_path.exists()`), tagging each with its directory name.  The
function only reads: it never writes `backups.json` (no `_save_metadata`
call), so the stored metadata is unchanged. -/
def listBackups (dirs : List DirEntry) : List (List Char × BackupRecord) :=
  (List.insertionSort descByName (dirs.filter fun d => isDateName d.name)).flatMap
    fun d => (d.backups.filter fun r => d.files.contains r.filename).map
      fun r => (d.name, r)

theorem cleanup_nonpos (retention : Int) (dirs : List DirEntry)
    (h : retention ≤ 0) : cleanupOldBackups retention dirs = dirs := by
  simp [cleanupOldBackups, h]

theorem cleanup_few (retention : Int) (dirs : List DirEntry)
    (h : ((dirs.filter fun d => isDateName d.name).length : Int) ≤ retention) :
    cleanupOldBackups retention dirs = dirs := by
  unfold cleanupOldBackups
  by_cases h1 : retention ≤ 0
  · rw [if_pos h1]
  · rw [if_neg h1, if_pos h]

theorem cleanup_many (retention : Int) (dirs : List DirEntry)
    (h1 : ¬ retention ≤ 0)
    (h2 : ¬ ((dirs.filter fun d => isDateName d.name).length : Int) ≤ retention) :
    cleanupOldBackups retention dirs =
      dirs.filter fun d =>
        decide (d ∉ (List.insertionSort descByName
          (dirs.filter fun d => isDateName d.name)).drop retention.toNat) := by
  unfold cleanupOldBackups
  rw [if_neg h1, if_neg h2]

theorem cleanup_hard_count (retention : Int) (dirs : List DirEntry)
    (h1 : ¬ retention ≤ 0)
    (h2 : ¬ ((dirs.filter fun d => isDateName d.name).length : Int) ≤ retention) :
    (((cleanupOldBackups retention dirs).filter
        fun d => isDateName d.name).length : Int) ≤ retention := by
  rw [cleanup_many retention dirs h1 h2]
  have hdoomed : ∀ p : DirEntry → Bool,
      ((dirs.filter p).filter fun d => isDateName d.name).length =
        List.countP p (dirs.filter fun d => isDateName d.name) := by
    intro p
    rw [List.filter_filter, List.countP_eq_length_filter, List.filter_filter]
    exact congrArg _ (List.filter_congr fun a _ => Bool.and_comm _ _)
  rw [hdoomed]
  have hperm := List.perm_insertionSort descByName
    (dirs.filter fun d => isDateName d.name)
  set sorted := List.insertionSort descByName
    (dirs.filter fun d => isDateName d.name) with hs
  set doomed := sorted.drop retention.toNat with hdm
  have hcount : List.countP (fun d => decide (d ∉ doomed))
      (dirs.filter fun d => isDateName d.name) =
      List.countP (fun d => decide (d ∉ doomed)) (sorted.take retention.toNat) +
        List.countP (fun d => decide (d ∉ doomed)) doomed := by
    rw [← (hperm.countP_eq _), hdm, ← List.countP_append,
      List.take_append_drop]
  rw [hcount]
  have hzero : List.countP (fun d => decide (d ∉ doomed)) doomed = 0 :=
    List.countP_eq_zero.mpr fun a ha => by simp [ha]
  have htake : List.countP (fun d => decide (d ∉ doomed))
      (sorted.take retention.toNat) ≤ retention.toNat := by
    refine le_trans (List.countP_le_length _) ?_
    rw [List.length_take]
    exact Nat.min_le_left _ _
  omega

/-- C7: `_cleanup_old_backups` is idempotent — running it a second time with
no backups created in between removes nothing more, leaving exactly the
bucket set the first run left. -/
theorem claim_C7_cleanup_idempotent (retention : Int) (dirs : List DirEntry) :
    cleanupOldBackups retention (cleanupOldBackups retention dirs) =
      cleanupOldBackups retention dirs := by
  by_cases h1 : retention ≤ 0
  · rw [cleanup_nonpos retention dirs h1, cleanup_nonpos retention dirs h1]
  · by_cases h2 : ((dirs.filter fun d => isDateName d.name).length : Int) ≤
        retention
    · rw [cleanup_few retention dirs h2, cleanup_few retention dirs h2]
    · exact cleanup_few retention _ (cleanup_hard_count retention dirs h1 h2)

/-- C6: `_cleanup_old_backups` with `retention <= 0` removes nothing; with
exactly `retention` buckets (date-format directories) present it removes
nothing; and with `retention + 1` buckets present (retention positive,
directory names distinct) it removes exactly the single oldest bucket — the
minimum under the descending name sort — leaving every other entry of the
backup directory untouched. -/
theorem claim_C6_cleanup_boundaries (retention : Int) (dirs : List DirEntry) :
    (retention ≤ 0 → cleanupOldBackups retention dirs = dirs) ∧
    (((dirs.filter fun d => isDateName d.name).length : Int) = retention →
      cleanupOldBackups retention dirs = dirs) ∧
    (0 < retention →
      ((dirs.filter fun d => isDateName d.name).length : Int) = retention + 1 →
      (dirs.map fun d => d.name).Nodup →
      ∃ x : DirEntry, x ∈ dirs ∧ isDateName x.name = true ∧
        (∀ y ∈ dirs, isDateName y.name = true → listLe x.name y.name = true) ∧
        cleanupOldBackups retention dirs = dirs.erase x) := by
  refine ⟨fun h => cleanup_nonpos retention dirs h,
    fun h => cleanup_few retention dirs (le_of_eq h), ?_⟩
  intro hpos hlen hnodup
  have h1 : ¬ retention ≤ 0 := by omega
  have h2 : ¬ ((dirs.filter fun d => isDateName d.name).length : Int) ≤
      retention := by omega
  have hperm := List.perm_insertionSort descByName
    (dirs.filter fun d => isDateName d.name)
  set dd := dirs.filter fun d => isDateName d.name with hdd
  set sorted := List.insertionSort descByName dd with hs
  set doomed := sorted.drop retention.toNat with hdm
  have hslen : sorted.length = retention.toNat + 1 := by
    rw [hperm.length_eq]
    omega
  have hdlen : doomed.length = 1 := by
    rw [hdm, List.length_drop, hslen]
    omega
  obtain ⟨x, hx⟩ := List.length_eq_one.mp hdlen
  have hxdoomed : x ∈ doomed := by rw [hx]; exact List.mem_singleton_self x
  have hxsorted : x ∈ sorted := List.drop_subset _ _ (hdm ▸ hxdoomed)
  have hxdd : x ∈ dd := hperm.mem_iff.mp hxsorted
  have hxdirs : x ∈ dirs := (List.mem_filter.mp hxdd).1
  have hxdate : isDateName x.name = true := (List.mem_filter.mp hxdd).2
  have hsortpw : List.Pairwise descByName sorted :=
    List.sorted_insertionSort descByName dd
  refine ⟨x, hxdirs, hxdate, ?_, ?_⟩
  · intro y hy hydate
    have hysorted : y ∈ sorted :=
      hperm.mem_iff.mpr (List.mem_filter.mpr ⟨hy, hydate⟩)
    have hsplit : sorted.take retention.toNat ++ doomed = sorted := by
      rw [hdm]
      exact List.take_append_drop _ _
    rcases List.mem_append.mp (by rw [hsplit]; exact hysorted :
        y ∈ sorted.take retention.toNat ++ doomed) with hyt | hydm
    · have hpw2 := List.pairwise_append.mp (hsplit ▸ hsortpw)
      exact hpw2.2.2 y hyt x hxdoomed
    · have : y = x := by
        rw [hx] at hydm
        exact List.mem_singleton.mp hydm
      rw [this]
      exact listLe_refl x.name
  · rw [cleanup_many retention dirs h1 h2]
    have hnd : dirs.Nodup := List.Nodup.of_map _ hnodup
    rw [List.Nodup.erase_eq_filter hnd x]
    refine List.filter_congr fun d _ => ?_
    rw [← hdd, ← hs, ← hdm, hx]
    by_cases hdx : d = x
    · subst hdx
      simp
    · simp [hdx]

/-- C6 (witness for the three boundary cases, at retention -1 resp. 2). -/
theorem claim_C6_witness :
    cleanupOldBackups (-1) [⟨"2024-01-01".data, [], []⟩] =
      [⟨"2024-01-01".data, [], []⟩] ∧
    cleanupOldBackups 2 [⟨"2024-01-01".data, [], []⟩,
        ⟨"2024-01-02".data, [], []⟩] =
      [⟨"2024-01-01".data, [], []⟩, ⟨"2024-01-02".data, [], []⟩] ∧
    (∃ x : DirEntry,
      x ∈ [⟨"2024-01-03".data, [], []⟩, ⟨"2024-01-01".data, [], []⟩,
        ⟨"2024-01-02".data, [], []⟩] ∧
      isDateName x.name = true ∧
      (∀ y ∈ [(⟨"2024-01-03".data, [], []⟩ : DirEntry),
          ⟨"2024-01-01".data, [], []⟩, ⟨"2024-01-02".data, [], []⟩],
        isDateName y.name = true → listLe x.name y.name = true) ∧
      cleanupOldBackups 2 [⟨"2024-01-03".data, [], []⟩,
          ⟨"2024-01-01".data, [], []⟩, ⟨"2024-01-02".data, [], []⟩] =
        [⟨"2024-01-03".data, [], []⟩, ⟨"2024-01-01".data, [], []⟩,
          ⟨"2024-01-02".data, [], []⟩].erase x) :=
  ⟨(claim_C6_cleanup_boundaries (-1) _).1 (by decide),
   (claim_C6_cleanup_boundaries 2 _).2.1 (by decide),
   (claim_C6_cleanup_boundaries 2 _).2.2 (by decide) (by decide) (by decide)⟩

theorem pairwise_const {α : Type} {P : Prop} (h : P) (l : List α) :
    l.Pairwise fun _ _ => P := by
  induction l with
  | nil => exact List.Pairwise.nil
  | cons x xs ih => exact List.Pairwise.cons (fun _ _ => h) ih

theorem flatMap_single {α β : Type} (l : List α) (g : α → List β) (d : α)
    (hd : d ∈ l) (hn : l.Nodup) (hz : ∀ e ∈ l, e ≠ d → g e = []) :
    l.flatMap g = g d := by
  induction l with
  | nil => cases hd
  | cons x xs ih =>
    rcases List.mem_cons.mp hd with rfl | hdx
    · have hxs : ∀ e ∈ xs, g e = [] := fun e he =>
        hz e (List.mem_cons_of_mem _ he)
          fun hedd => (List.nodup_cons.mp hn).1 (hedd ▸ he)
      rw [List.flatMap_cons, List.flatMap_eq_nil_iff.mpr hxs, List.append_nil]
    · have hx0 : g x = [] :=
        hz x (List.mem_cons_self _ _)
          fun hxd => (List.nodup_cons.mp hn).1 (hxd ▸ hdx)
      rw [List.flatMap_cons, hx0, List.nil_append]
      exact ih hdx (List.nodup_cons.mp hn).2
        fun e he hne => hz e (List.mem_cons_of_mem _ he) hne

/-- C8: `list_backups` (a pure read: it never calls `_save_metadata`, so the
stored metadata is unmodified) yields exactly the records of the date-format
buckets whose archive file still exists; the output is ordered newest bucket
first (directory names non-increasing), and — when directory names are
distinct — the slice of the output belonging to one bucket is that bucket's
record list in stored order, filtered only by archive existence, so records
with a missing archive are silently omitted. -/
theorem claim_C8_list_backups (dirs : List DirEntry) :
    (∀ (n : List Char) (r : BackupRecord),
      (n, r) ∈ listBackups dirs ↔
        ∃ d : DirEntry, d ∈ dirs ∧ isDateName d.name = true ∧ d.name = n ∧
          r ∈ d.backups ∧ r.filename ∈ d.files) ∧
    (listBackups dirs).Pairwise (fun a b => listLe b.1 a.1 = true) ∧
    (∀ d ∈ dirs, isDateName d.name = true →
      (dirs.map fun e => e.name).Nodup →
      (listBackups dirs).filter (fun e => e.1 == d.name) =
        (d.backups.filter fun r => d.files.contains r.filename).map
          fun r => (d.name, r)) := by
  have hperm := List.perm_insertionSort descByName
    (dirs.filter fun d => isDateName d.name)
  refine ⟨?_, ?_, ?_⟩
  · intro n r
    unfold listBackups
    constructor
    · intro hmem
      obtain ⟨d, hdmem, hpair⟩ := List.mem_flatMap.mp hmem
      obtain ⟨r', hr', heq⟩ := List.mem_map.mp hpair
      obtain ⟨hname, hrec⟩ := Prod.mk.injEq _ _ _ _ ▸ heq
      have hdd := hperm.mem_iff.mp hdmem
      obtain ⟨hdirs, hdate⟩ := List.mem_filter.mp hdd
      obtain ⟨hrb, hcont⟩ := List.mem_filter.mp hr'
      refine ⟨d, hdirs, hdate, hname, hrec ▸ hrb, ?_⟩
      rw [← hrec]
      simpa using hcont
    · rintro ⟨d, hdirs, hdate, rfl, hrb, hfile⟩
      refine List.mem_flatMap.mpr ⟨d, ?_, ?_⟩
      · exact hperm.mem_iff.mpr (List.mem_filter.mpr ⟨hdirs, hdate⟩)
      · exact List.mem_map.mpr ⟨r,
          List.mem_filter.mpr ⟨hrb, by simpa using hfile⟩, rfl⟩
  · unfold listBackups
    rw [List.pairwise_flatMap]
    constructor
    · intro a _
      rw [List.pairwise_map]
      exact pairwise_const (listLe_refl a.name) _
    · have hsorted : List.Pairwise descByName (List.insertionSort descByName
          (dirs.filter fun d => isDateName d.name)) :=
        List.sorted_insertionSort descByName _
      refine hsorted.imp ?_
      intro a b hab x hx y hy
      obtain ⟨r1, -, hx1⟩ := List.mem_map.mp hx
      obtain ⟨r2, -, hy1⟩ := List.mem_map.mp hy
      rw [← hx1, ← hy1]
      exact hab
  · intro d hd hq hnodup
    have hnd : dirs.Nodup := List.Nodup.of_map _ hnodup
    have hinj := (List.nodup_map_iff_inj_on hnd).mp hnodup
    have hddnd : (dirs.filter fun e => isDateName e.name).Nodup :=
      List.Nodup.filter _ hnd
    have hsnd : (List.insertionSort descByName
        (dirs.filter fun e => isDateName e.name)).Nodup :=
      hperm.nodup_iff.mpr hddnd
    have hds : d ∈ List.insertionSort descByName
        (dirs.filter fun e => isDateName e.name) :=
      hperm.mem_iff.mpr (List.mem_filter.mpr ⟨hd, hq⟩)
    unfold listBackups
    rw [List.filter_flatMap]
    have hblock : ∀ a : DirEntry,
        ((a.backups.filter fun r => a.files.contains r.filename).map
          (fun r => (a.name, r))).filter (fun e => e.1 == d.name) =
        if a.name = d.name then
          (a.backups.filter fun r => a.files.contains r.filename).map
            fun r => (a.name, r)
        else [] := by
      intro a
      rw [List.filter_map]
      by_cases hn : a.name = d.name
      · rw [if_pos hn]
        refine congrArg _ ?_
        have hcongr : List.filter
            ((fun e : List Char × BackupRecord => e.1 == d.name) ∘
              fun r => (a.name, r))
            (a.backups.filter fun r => a.files.contains r.filename) =
            List.filter (fun _ => true)
            (a.backups.filter fun r => a.files.contains r.filename) :=
          List.filter_congr fun r _ => by simp [hn]
        rw [hcongr, List.filter_true]
      · rw [if_neg hn]
        have hcongr : List.filter
            ((fun e : List Char × BackupRecord => e.1 == d.name) ∘
              fun r => (a.name, r))
            (a.backups.filter fun r => a.files.contains r.filename) =
            List.filter (fun _ => false)
            (a.backups.filter fun r => a.files.contains r.filename) :=
          List.filter_congr fun r _ => by simp [hn]
        rw [hcongr, List.filter_false, List.map_nil]
    simp only [hblock]
    rw [flatMap_single _ _ d hds hsnd ?side]
    · rw [if_pos rfl]
    case side =>
      intro e hesorted hne
      have hedd := hperm.mem_iff.mp hesorted
      obtain ⟨hedirs, _⟩ := List.mem_filter.mp hedd
      rw [if_neg]
      intro hname
      exact hne (hinj e hedirs d hd hname)

/-- C8 (witness). -/
theorem claim_C8_witness :
    (listBackups [⟨"2024-01-01".data, [⟨1, "c.zip".data, none⟩], ["c.zip".data]⟩,
        ⟨"2024-01-02".data, [⟨1, "a.zip".data, none⟩, ⟨2, "b.zip".data, none⟩],
          ["a.zip".data]⟩]).filter
        (fun e => e.1 == "2024-01-02".data) =
      ([⟨1, "a.zip".data, none⟩, (⟨2, "b.zip".data, none⟩ : BackupRecord)].filter
        fun r => ["a.zip".data].contains r.filename).map
          fun r => ("2024-01-02".data, r) := by
  have h := (claim_C8_list_backups
    [⟨"2024-01-01".data, [⟨1, "c.zip".data, none⟩], ["c.zip".data]⟩,
     ⟨"2024-01-02".data, [⟨1, "a.zip".data, none⟩, ⟨2, "b.zip".data, none⟩],
       ["a.zip".data]⟩]).2.2
    ⟨"2024-01-02".data, [⟨1, "a.zip".data, none⟩, ⟨2, "b.zip".data, none⟩],
      ["a.zip".data]⟩
    (List.mem_cons_of_mem _ (List.mem_cons_self _ _)) (by decide) (by decide)
  exact h
